import Mathlib

/-!
Shallow embedding of `src/src/lib.rs` (crate `random_choice`): Stochastic
Universal Sampling with four entry points, `random_choice_f64`,
`random_choice_in_place_f64`, `random_choice_f32`, `random_choice_in_place_f32`.

Modelling conventions:
* Floating-point values (`f64` / `f32`) are modelled as exact rationals `ℚ`.
  All claims settled here are structural (guards, lengths, index arithmetic,
  loop invariants, determinism); none depends on rounding, so the exact model
  is the faithful reading of the algorithm. The two precisions run the very
  same control flow; their Lean models therefore have identical bodies.
* Slices become `List`; the panicking index operation `xs[i]` becomes
  `List.get?` with `none` propagated as the out-of-bounds failure (`Option`).
* `thread_rng().next_f64()` (one uniform draw in `[0,1)`) becomes an explicit
  parameter `u : ℚ`; the stateful random source is modelled separately by the
  `Rng` structure (a stream of draws plus a position), consumed exactly where
  the source calls `next_f64`/`next_f32`.
* The inner `while accumulated_weights < current_spoke` loop is written with
  explicit fuel `weights.length + 1`, which is enough for it never to be the
  fuel that stops the loop: each iteration reads `weights[j+1]` and increments
  `j`, so after at most `weights.length - j` iterations the read itself fails.
-/

namespace RandomChoice

/-- The inner walk loop of all four entry points
(`while accumulated_weights < current_spoke { i += 1; accumulated_weights += weights[i]; }`),
with explicit fuel. Returns the updated index and accumulated weight, or
`none` when the read `weights[j+1]` goes out of bounds (a panic in the Rust
source) or fuel runs out (never happens for fuel > weights.length - j). -/
def advanceFuel (weights : List ℚ) (spoke : ℚ) : Nat → Nat → ℚ → Option (Nat × ℚ)
  | 0, _, _ => none
  | Nat.succ f, j, acc =>
    if acc < spoke then
      match weights.get? (j + 1) with
      | none => none
      | some w => advanceFuel weights spoke f (j + 1) (acc + w)
    else
      some (j, acc)

/-- The inner walk loop with always-sufficient fuel. -/
def advance (weights : List ℚ) (spoke : ℚ) (j : Nat) (acc : ℚ) : Option (Nat × ℚ) :=
  advanceFuel weights spoke (weights.length + 1) j acc

/-- Outer loop of `random_choice_f64` / `random_choice_f32`
(`for _ in 0..n { while ...; choices.push(&samples[i]); current_spoke += spoke_gap; }`):
`k` slots remain, `i` is the selector index, `acc` the accumulated weight,
`spoke` the current spoke. -/
def choiceLoop (samples : List α) (weights : List ℚ) (gap : ℚ) :
    Nat → Nat → ℚ → ℚ → Option (List α)
  | 0, _, _, _ => some []
  | Nat.succ k, i, acc, spoke =>
    match advance weights spoke i acc with
    | none => none
    | some (i', acc') =>
      match samples.get? i' with
      | none => none
      | some s =>
        match choiceLoop samples weights gap k i' acc' (spoke + gap) with
        | none => none
        | some rest => some (s :: rest)

/-- `RandomChoice::random_choice_f64` with the single uniform draw `u ∈ [0,1)`
passed explicitly. Returns `none` exactly when the Rust code would panic on an
out-of-bounds index. -/
def random_choice_f64 (samples : List α) (weights : List ℚ) (n : Nat) (u : ℚ) :
    Option (List α) :=
  if weights.length = 0 ∨ n = 0 then
    some []
  else
    let sum : ℚ := weights.foldl (fun acc w => acc + w) 0
    let spoke_gap : ℚ := sum / (n : ℚ)
    let spin : ℚ := u * spoke_gap
    match weights.get? 0 with
    | none => none
    | some w0 => choiceLoop samples weights spoke_gap n 0 w0 spin

/-- `RandomChoice::random_choice_f32`: same algorithm at single precision; in
the exact-rational model its body is identical to the `f64` one. -/
def random_choice_f32 (samples : List α) (weights : List ℚ) (n : Nat) (u : ℚ) :
    Option (List α) :=
  if weights.length = 0 ∨ n = 0 then
    some []
  else
    let sum : ℚ := weights.foldl (fun acc w => acc + w) 0
    let spoke_gap : ℚ := sum / (n : ℚ)
    let spin : ℚ := u * spoke_gap
    match weights.get? 0 with
    | none => none
    | some w0 => choiceLoop samples weights spoke_gap n 0 w0 spin

/-- Outer loop of the in-place variants
(`for i in 0..n { while ...; samples[i] = samples[j].clone(); current_spoke += spoke_gap; }`):
the buffer is threaded through; the read `samples[j]` and the write
`samples[i]` each fail (`none`) when out of bounds, as the Rust indexing
panics would. -/
def inPlaceLoop (weights : List ℚ) (gap : ℚ) :
    Nat → Nat → Nat → ℚ → ℚ → List α → Option (List α)
  | 0, _, _, _, _, buf => some buf
  | Nat.succ k, i, j, acc, spoke, buf =>
    match advance weights spoke j acc with
    | none => none
    | some (j', acc') =>
      match buf.get? j' with
      | none => none
      | some v =>
        if i < buf.length then
          inPlaceLoop weights gap k (i + 1) j' acc' (spoke + gap) (buf.set i v)
        else
          none

/-- `RandomChoice::random_choice_in_place_f64`, with draw `u` explicit; the
mutated buffer is returned (`none` on an out-of-bounds panic). -/
def random_choice_in_place_f64 (samples : List α) (weights : List ℚ) (u : ℚ) :
    Option (List α) :=
  if weights.length < 2 then
    some samples
  else
    let sum : ℚ := weights.foldl (fun acc w => acc + w) 0
    let n : Nat := weights.length
    let spoke_gap : ℚ := sum / (n : ℚ)
    let spin : ℚ := u * spoke_gap
    match weights.get? 0 with
    | none => none
    | some w0 => inPlaceLoop weights spoke_gap n 0 0 w0 spin samples

/-- `RandomChoice::random_choice_in_place_f32`: identical body in the
exact-rational model. -/
def random_choice_in_place_f32 (samples : List α) (weights : List ℚ) (u : ℚ) :
    Option (List α) :=
  if weights.length < 2 then
    some samples
  else
    let sum : ℚ := weights.foldl (fun acc w => acc + w) 0
    let n : Nat := weights.length
    let spoke_gap : ℚ := sum / (n : ℚ)
    let spin : ℚ := u * spoke_gap
    match weights.get? 0 with
    | none => none
    | some w0 => inPlaceLoop weights spoke_gap n 0 0 w0 spin samples

/-- Instrumented outer loop: the same walk as `choiceLoop` / `inPlaceLoop`,
recording the selector index chosen for each slot instead of touching the
sample buffer. -/
def walkIndices (weights : List ℚ) (gap : ℚ) :
    Nat → Nat → ℚ → ℚ → Option (List Nat)
  | 0, _, _, _ => some []
  | Nat.succ k, j, acc, spoke =>
    match advance weights spoke j acc with
    | none => none
    | some (j', acc') =>
      match walkIndices weights gap k j' acc' (spoke + gap) with
      | none => none
      | some rest => some (j' :: rest)

/-- The sequence of selector indices chosen by `random_choice_f64` /
`random_choice_f32` (the walk does not depend on the samples). -/
def random_choice_indices (weights : List ℚ) (n : Nat) (u : ℚ) : Option (List Nat) :=
  if weights.length = 0 ∨ n = 0 then
    some []
  else
    let sum : ℚ := weights.foldl (fun acc w => acc + w) 0
    let spoke_gap : ℚ := sum / (n : ℚ)
    let spin : ℚ := u * spoke_gap
    match weights.get? 0 with
    | none => none
    | some w0 => walkIndices weights spoke_gap n 0 w0 spin

/-- The sequence of source indices `j` used by the in-place variants, one per
destination index `i = 0, 1, ...`. -/
def in_place_indices (weights : List ℚ) (u : ℚ) : Option (List Nat) :=
  if weights.length < 2 then
    some []
  else
    let sum : ℚ := weights.foldl (fun acc w => acc + w) 0
    let n : Nat := weights.length
    let spoke_gap : ℚ := sum / (n : ℚ)
    let spin : ℚ := u * spoke_gap
    match weights.get? 0 with
    | none => none
    | some w0 => walkIndices weights spoke_gap n 0 w0 spin

/-- The process-wide random source (`thread_rng()`), modelled as a stream of
uniform draws together with the position of the next draw. -/
structure Rng where
  stream : Nat → ℚ
  idx : Nat

/-- One draw (`next_f64()` / `next_f32()` ∈ [0,1)): yields the current value
and advances the state. -/
def Rng.next (r : Rng) : ℚ × Rng :=
  (r.stream r.idx, ⟨r.stream, r.idx + 1⟩)

/-- `random_choice_f64` together with its effect on the shared random source:
the guard returns before the draw; otherwise exactly one value is drawn. -/
def random_choice_f64_rng (samples : List α) (weights : List ℚ) (n : Nat) (r : Rng) :
    Option (List α) × Rng :=
  if weights.length = 0 ∨ n = 0 then
    (some [], r)
  else
    let p := Rng.next r
    (random_choice_f64 samples weights n p.1, p.2)

/-- `random_choice_in_place_f64` together with its effect on the random
source: the `weights.len() < 2` guard returns before the draw. -/
def random_choice_in_place_f64_rng (samples : List α) (weights : List ℚ) (r : Rng) :
    Option (List α) × Rng :=
  if weights.length < 2 then
    (some samples, r)
  else
    let p := Rng.next r
    (random_choice_in_place_f64 samples weights p.1, p.2)

/-- `random_choice_f32` with its random-source effect. -/
def random_choice_f32_rng (samples : List α) (weights : List ℚ) (n : Nat) (r : Rng) :
    Option (List α) × Rng :=
  if weights.length = 0 ∨ n = 0 then
    (some [], r)
  else
    let p := Rng.next r
    (random_choice_f32 samples weights n p.1, p.2)

/-- `random_choice_in_place_f32` with its random-source effect. -/
def random_choice_in_place_f32_rng (samples : List α) (weights : List ℚ) (r : Rng) :
    Option (List α) × Rng :=
  if weights.length < 2 then
    (some samples, r)
  else
    let p := Rng.next r
    (random_choice_in_place_f32 samples weights p.1, p.2)

/-- Prefix sum of the first `k` weights. -/
def pSum (weights : List ℚ) (k : Nat) : ℚ :=
  (weights.take k).sum

lemma foldl_add_eq (l : List ℚ) : ∀ a : ℚ, l.foldl (fun acc w => acc + w) a = a + l.sum := by
  induction l with
  | nil => intro a; simp
  | cons x xs ih =>
    intro a
    simp only [List.foldl_cons, List.sum_cons, ih]
    ring

lemma pSum_succ (w : List ℚ) (j : Nat) (h : j < w.length) :
    pSum w (j + 1) = pSum w j + w.get ⟨j, h⟩ := by
  simp [pSum, List.sum_take_succ w j h]

lemma pSum_one (w0 : ℚ) (tl : List ℚ) : pSum (w0 :: tl) 1 = w0 := by
  simp [pSum]

/-- Soundness facts about the inner walk loop: on success the index does not
decrease, the exit condition holds, and the accumulated weight stays the
prefix sum of the consumed weights. -/
lemma advanceFuel_ge (w : List ℚ) (spoke : ℚ) :
    ∀ (f j : Nat) (acc : ℚ) (j' : Nat) (acc' : ℚ),
      advanceFuel w spoke f j acc = some (j', acc') →
        j ≤ j' ∧ ¬ acc' < spoke ∧ (acc = pSum w (j + 1) → acc' = pSum w (j' + 1)) := by
  intro f
  induction f with
  | zero =>
    intro j acc j' acc' h
    simp [advanceFuel] at h
  | succ f ih =>
    intro j acc j' acc' h
    by_cases hc : acc < spoke
    · simp only [advanceFuel, if_pos hc] at h
      cases hg : w.get? (j + 1) with
      | none => rw [hg] at h; exact absurd h (by simp)
      | some wj =>
        rw [hg] at h
        obtain ⟨h1, h2, h3⟩ := ih (j + 1) (acc + wj) j' acc' h
        refine ⟨by omega, h2, ?_⟩
        intro hacc
        apply h3
        have hlt : j + 1 < w.length := (List.get?_eq_some.mp hg).1
        have hwj : w.get ⟨j + 1, hlt⟩ = wj := (List.get?_eq_some.mp hg).2
        rw [pSum_succ w (j + 1) hlt, hwj, hacc]
    · simp only [advanceFuel, if_neg hc] at h
      obtain ⟨rfl, rfl⟩ : j = j' ∧ acc = acc' := by
        constructor <;> [exact congrArg Prod.fst (Option.some.inj h);
          exact congrArg Prod.snd (Option.some.inj h)]
      exact ⟨le_refl _, hc, fun hacc => hacc⟩

/-- Completeness of the inner walk loop: if some target index `i` already has
prefix weight at least the spoke, the loop succeeds and stops at an index no
larger than `i`. -/
lemma advanceFuel_stop (w : List ℚ) (spoke : ℚ) :
    ∀ (f i j : Nat) (acc : ℚ), j ≤ i → i < w.length → i - j < f →
      acc = pSum w (j + 1) → spoke ≤ pSum w (i + 1) →
      ∃ (j' : Nat) (acc' : ℚ), advanceFuel w spoke f j acc = some (j', acc') ∧
        j ≤ j' ∧ j' ≤ i ∧ acc' = pSum w (j' + 1) := by
  intro f
  induction f with
  | zero => intro i j acc hji hi hf hacc hsp; omega
  | succ f ih =>
    intro i j acc hji hi hf hacc hsp
    by_cases hc : acc < spoke
    · have hjne : j ≠ i := by
        intro he
        subst he
        rw [hacc] at hc
        exact absurd hsp (not_le.mpr hc)
      have hj1 : j + 1 < w.length := by omega
      have hg : w.get? (j + 1) = some (w.get ⟨j + 1, hj1⟩) := List.get?_eq_get hj1
      obtain ⟨j', acc', h1, h2, h3, h4⟩ :=
        ih i (j + 1) (acc + w.get ⟨j + 1, hj1⟩) (by omega) hi (by omega)
          (by rw [hacc]; exact (pSum_succ w (j + 1) hj1).symm) hsp
      refine ⟨j', acc', ?_, by omega, h3, h4⟩
      simp only [advanceFuel, if_pos hc, hg]
      exact h1
    · exact ⟨j, acc, by simp only [advanceFuel, if_neg hc], le_refl _, hji, hacc⟩

/-- The walk never decreases the selector index: every recorded index is at
least the starting index, and the recorded sequence is non-decreasing. -/
lemma walkIndices_mono (w : List ℚ) (gap : ℚ) :
    ∀ (k j : Nat) (acc spoke : ℚ) (js : List Nat),
      walkIndices w gap k j acc spoke = some js →
        (∀ x ∈ js, j ≤ x) ∧ js.Chain' (· ≤ ·) := by
  intro k
  induction k with
  | zero =>
    intro j acc spoke js h
    simp only [walkIndices] at h
    obtain rfl : ([] : List Nat) = js := Option.some.inj h
    exact ⟨by simp, List.chain'_nil⟩
  | succ k ih =>
    intro j acc spoke js h
    simp only [walkIndices] at h
    split at h
    · exact absurd h (by simp)
    next j' acc' hA =>
      split at h
      · exact absurd h (by simp)
      next rest hrec =>
        obtain rfl : j' :: rest = js := Option.some.inj h
        have hjj : j ≤ j' := (advanceFuel_ge w spoke _ j acc j' acc' hA).1
        obtain ⟨hall, hchain⟩ := ih j' acc' (spoke + gap) rest hrec
        refine ⟨?_, ?_⟩
        · intro x hx
          rcases List.mem_cons.mp hx with hx | hx
          · omega
          · exact le_trans hjj (hall x hx)
        · exact List.chain'_cons'.mpr ⟨fun y hy => hall y (List.mem_of_mem_head? hy), hchain⟩

/-- The walk records exactly one index per output slot. -/
lemma walkIndices_length (w : List ℚ) (gap : ℚ) :
    ∀ (k j : Nat) (acc spoke : ℚ) (js : List Nat),
      walkIndices w gap k j acc spoke = some js → js.length = k := by
  intro k
  induction k with
  | zero =>
    intro j acc spoke js h
    simp only [walkIndices] at h
    obtain rfl : ([] : List Nat) = js := Option.some.inj h
    rfl
  | succ k ih =>
    intro j acc spoke js h
    simp only [walkIndices] at h
    split at h
    · exact absurd h (by simp)
    next j' acc' hA =>
      split at h
      · exact absurd h (by simp)
      next rest hrec =>
        obtain rfl : j' :: rest = js := Option.some.inj h
        simp [ih j' acc' (spoke + gap) rest hrec]

/-- When the prefix weights keep pace with the spokes (`pSum w (i+1)` is at
least every spoke value it must meet), every recorded selector index stays at
or below its destination slot. -/
lemma walkIndices_pace (w : List ℚ) (gap : ℚ) :
    ∀ (k i0 j : Nat) (acc spoke : ℚ),
      j ≤ i0 → i0 + k = w.length → acc = pSum w (j + 1) →
      (∀ t : Nat, t < k → spoke + (t : ℚ) * gap ≤ pSum w (i0 + t + 1)) →
      ∀ js, walkIndices w gap k j acc spoke = some js →
        ∀ (t : Nat) (ht : t < js.length), js.get ⟨t, ht⟩ ≤ i0 + t := by
  intro k
  induction k with
  | zero =>
    intro i0 j acc spoke hji hlen hacc hpace js h t ht
    simp only [walkIndices] at h
    obtain rfl : ([] : List Nat) = js := Option.some.inj h
    simp at ht
  | succ k ih =>
    intro i0 j acc spoke hji hlen hacc hpace js h t ht
    have hi0 : i0 < w.length := by omega
    have hsp : spoke ≤ pSum w (i0 + 1) := by simpa using hpace 0 (by omega)
    obtain ⟨j2, acc2, hA, hA1, hA2, hA3⟩ :=
      advanceFuel_stop w spoke (w.length + 1) i0 j acc hji hi0 (by omega) hacc hsp
    have hAdv : advance w spoke j acc = some (j2, acc2) := hA
    simp only [walkIndices] at h
    split at h
    next hA' => rw [hAdv] at hA'; exact absurd hA' (by simp)
    next j' acc' hA' =>
      obtain ⟨rfl, rfl⟩ : j' = j2 ∧ acc' = acc2 := by
        have hpq := Option.some.inj (hA'.symm.trans hAdv)
        exact ⟨congrArg Prod.fst hpq, congrArg Prod.snd hpq⟩
      split at h
      · exact absurd h (by simp)
      next rest hrec =>
        obtain rfl : j' :: rest = js := Option.some.inj h
        cases t with
        | zero => simpa using hA2
        | succ t' =>
          have hpace' : ∀ t : Nat, t < k →
              (spoke + gap) + (t : ℚ) * gap ≤ pSum w ((i0 + 1) + t + 1) := by
            intro t htk
            have hp := hpace (t + 1) (by omega)
            have he1 : i0 + (t + 1) + 1 = (i0 + 1) + t + 1 := by omega
            rw [he1] at hp
            push_cast at hp
            linarith
          have hrest := ih (i0 + 1) j' acc' (spoke + gap) (by omega) (by omega) hA3
            hpace' rest hrec t' (by simpa using ht)
          have he2 : (i0 + 1) + t' = i0 + (t' + 1) := by omega
          rw [he2] at hrest
          simpa using hrest

/-- The allocating outer loop produces exactly one element per slot. -/
lemma choiceLoop_length (s : List α) (w : List ℚ) (gap : ℚ) :
    ∀ (k i : Nat) (acc spoke : ℚ) (l : List α),
      choiceLoop s w gap k i acc spoke = some l → l.length = k := by
  intro k
  induction k with
  | zero =>
    intro i acc spoke l h
    simp only [choiceLoop] at h
    obtain rfl : ([] : List α) = l := Option.some.inj h
    rfl
  | succ k ih =>
    intro i acc spoke l h
    simp only [choiceLoop] at h
    split at h
    · exact absurd h (by simp)
    next i' acc' hA =>
      split at h
      · exact absurd h (by simp)
      next sv hs =>
        split at h
        · exact absurd h (by simp)
        next rest hrec =>
          obtain rfl : sv :: rest = l := Option.some.inj h
          simp [ih i' acc' (spoke + gap) rest hrec]

/-- The in-place outer loop never changes the buffer's length. -/
lemma inPlaceLoop_length (w : List ℚ) (gap : ℚ) :
    ∀ (k i j : Nat) (acc spoke : ℚ) (buf l : List α),
      inPlaceLoop w gap k i j acc spoke buf = some l → l.length = buf.length := by
  intro k
  induction k with
  | zero =>
    intro i j acc spoke buf l h
    simp only [inPlaceLoop] at h
    obtain rfl : buf = l := Option.some.inj h
    rfl
  | succ k ih =>
    intro i j acc spoke buf l h
    simp only [inPlaceLoop] at h
    split at h
    · exact absurd h (by simp)
    next j' acc' hA =>
      split at h
      · exact absurd h (by simp)
      next v hv =>
        split at h
        · have := ih (i + 1) j' acc' (spoke + gap) (buf.set i v) l h
          simpa [List.length_set] using this
        · exact absurd h (by simp)

/-- Correspondence between the allocating loop and the instrumented walk:
every produced element is the sample at the index the walk selected for that
slot, and every selected index is within the sample sequence. -/
lemma choiceLoop_indices [Inhabited α] (s : List α) (w : List ℚ) (gap : ℚ) :
    ∀ (k i : Nat) (acc spoke : ℚ) (l : List α),
      choiceLoop s w gap k i acc spoke = some l →
      ∃ js, walkIndices w gap k i acc spoke = some js ∧
        l = js.map (fun j => s.getD j default) ∧ ∀ j ∈ js, j < s.length := by
  intro k
  induction k with
  | zero =>
    intro i acc spoke l h
    simp only [choiceLoop] at h
    obtain rfl : ([] : List α) = l := Option.some.inj h
    exact ⟨[], by simp [walkIndices], by simp, by simp⟩
  | succ k ih =>
    intro i acc spoke l h
    simp only [choiceLoop] at h
    split at h
    · exact absurd h (by simp)
    next i' acc' hA =>
      split at h
      · exact absurd h (by simp)
      next sv hs =>
        split at h
        · exact absurd h (by simp)
        next rest hrec =>
          obtain rfl : sv :: rest = l := Option.some.inj h
          obtain ⟨js, hjs, hmap, hbound⟩ := ih i' acc' (spoke + gap) rest hrec
          have hlt : i' < s.length := (List.get?_eq_some.mp hs).1
          refine ⟨i' :: js, ?_, ?_, ?_⟩
          · simp [walkIndices, hA, hjs]
          · have hd : s.getD i' default = sv := by
              rw [List.getD_eq_getElem?_getD, ← List.get?_eq_getElem?, hs]
              rfl
            rw [List.map_cons, hd, ← hmap]
          · intro j hj
            rcases List.mem_cons.mp hj with rfl | hj
            · exact hlt
            · exact hbound j hj

/-- With the exit condition already satisfied, the inner loop returns at once. -/
lemma advance_now (w : List ℚ) (j : Nat) (acc spoke : ℚ) (h : ¬ acc < spoke) :
    advance w spoke j acc = some (j, acc) := by
  show advanceFuel w spoke (Nat.succ w.length) j acc = some (j, acc)
  simp only [advanceFuel, if_neg h]

/-- With zero spoke gap and zero spokes the allocating loop never advances and
keeps picking the first sample. -/
lemma choiceLoop_zero_gap (s0 : α) (tl : List α) (w : List ℚ) :
    ∀ k : Nat, choiceLoop (s0 :: tl) w 0 k 0 0 0 = some (List.replicate k s0) := by
  intro k
  induction k with
  | zero => simp [choiceLoop]
  | succ k ih =>
    have hA : advance w 0 0 0 = some (0, 0) := advance_now w 0 0 0 (by norm_num)
    simp [choiceLoop, hA, ih, List.replicate_succ]

/-- In the exact-rational model the `f32` entry points coincide with the `f64`
ones (the source bodies differ only in float width). -/
lemma random_choice_f32_eq (samples : List α) (weights : List ℚ) (n : Nat) (u : ℚ) :
    random_choice_f32 samples weights n u = random_choice_f64 samples weights n u := rfl

/-- `f32`/`f64` coincidence for the in-place variant. -/
lemma random_choice_in_place_f32_eq (samples : List α) (weights : List ℚ) (u : ℚ) :
    random_choice_in_place_f32 samples weights u = random_choice_in_place_f64 samples weights u := rfl

/-- Claim C6: if the weight sequence is empty or `n = 0`, `random_choice`
(both precisions) returns an empty sequence immediately, and the shared random
source is not drawn from (its state is unchanged). -/
theorem c6_empty_guard (samples : List α) (weights : List ℚ) (n : Nat) (r : Rng) (u : ℚ)
    (h : weights.length = 0 ∨ n = 0) :
    random_choice_f64_rng samples weights n r = (some [], r) ∧
    random_choice_f32_rng samples weights n r = (some [], r) ∧
    random_choice_f64 samples weights n u = some [] ∧
    random_choice_f32 samples weights n u = some [] := by
  refine ⟨?_, ?_, ?_, ?_⟩
  · simp only [random_choice_f64_rng, if_pos h]
  · simp only [random_choice_f32_rng, if_pos h]
  · simp only [random_choice_f64, if_pos h]
  · simp only [random_choice_f32, if_pos h]

/-- Witness for C6 at empty weights (and at `n = 0` the same theorem applies):
the guard returns `[]` and leaves the random state untouched. -/
theorem c6_empty_guard_witness :
    random_choice_f64_rng ([1] : List ℤ) ([] : List ℚ) 5 ⟨fun _ => 0, 0⟩ =
      (some [], ⟨fun _ => 0, 0⟩) ∧
    random_choice_f32_rng ([1] : List ℤ) ([] : List ℚ) 5 ⟨fun _ => 0, 0⟩ =
      (some [], ⟨fun _ => 0, 0⟩) ∧
    random_choice_f64 ([1] : List ℤ) ([] : List ℚ) 5 0 = some [] ∧
    random_choice_f32 ([1] : List ℤ) ([] : List ℚ) 5 0 = some [] :=
  c6_empty_guard ([1] : List ℤ) ([] : List ℚ) 5 ⟨fun _ => 0, 0⟩ 0 (Or.inl rfl)

/-- Claim C7: when `weights.len() < 2` the in-place variant (both precisions)
returns immediately, leaving the sample buffer entirely unchanged and the
random source undrawn. -/
theorem c7_small_guard (samples : List α) (weights : List ℚ) (u : ℚ) (r : Rng)
    (h : weights.length < 2) :
    random_choice_in_place_f64 samples weights u = some samples ∧
    random_choice_in_place_f32 samples weights u = some samples ∧
    random_choice_in_place_f64_rng samples weights r = (some samples, r) ∧
    random_choice_in_place_f32_rng samples weights r = (some samples, r) := by
  refine ⟨?_, ?_, ?_, ?_⟩
  · simp only [random_choice_in_place_f64, if_pos h]
  · simp only [random_choice_in_place_f32, if_pos h]
  · simp only [random_choice_in_place_f64_rng, if_pos h]
  · simp only [random_choice_in_place_f32_rng, if_pos h]

/-- Witness for C7 on a one-element weight list: the buffer `[3]` comes back
element-for-element unchanged. -/
theorem c7_small_guard_witness :
    random_choice_in_place_f64 ([3] : List ℤ) [1] 0 = some [3] ∧
    random_choice_in_place_f32 ([3] : List ℤ) [1] 0 = some [3] ∧
    random_choice_in_place_f64_rng ([3] : List ℤ) [1] ⟨fun _ => 0, 0⟩ =
      (some [3], ⟨fun _ => 0, 0⟩) ∧
    random_choice_in_place_f32_rng ([3] : List ℤ) [1] ⟨fun _ => 0, 0⟩ =
      (some [3], ⟨fun _ => 0, 0⟩) :=
  c7_small_guard ([3] : List ℤ) [1] 0 ⟨fun _ => 0, 0⟩ (by norm_num)

/-- Claim C8: with the uniform source stubbed to a constant stream, two calls
of the same variant with identical samples, weights and `n` produce identical
outputs, regardless of how far the source state has advanced between the
calls — the algorithm has no other source of nondeterminism. -/
theorem c8_deterministic_under_fixed_spin (samples samples2 : List α)
    (weights weights2 : List ℚ) (n : Nat) (u u2 : ℚ) (i1 i2 j1 j2 : Nat) :
    (random_choice_f64_rng samples weights n ⟨fun _ => u, i1⟩).1 =
      (random_choice_f64_rng samples weights n ⟨fun _ => u, i2⟩).1 ∧
    (random_choice_f32_rng samples weights n ⟨fun _ => u, i1⟩).1 =
      (random_choice_f32_rng samples weights n ⟨fun _ => u, i2⟩).1 ∧
    (random_choice_in_place_f64_rng samples2 weights2 ⟨fun _ => u2, j1⟩).1 =
      (random_choice_in_place_f64_rng samples2 weights2 ⟨fun _ => u2, j2⟩).1 ∧
    (random_choice_in_place_f32_rng samples2 weights2 ⟨fun _ => u2, j1⟩).1 =
      (random_choice_in_place_f32_rng samples2 weights2 ⟨fun _ => u2, j2⟩).1 := by
  refine ⟨?_, ?_, ?_, ?_⟩ <;>
  · simp only [random_choice_f64_rng, random_choice_f32_rng,
      random_choice_in_place_f64_rng, random_choice_in_place_f32_rng, Rng.next]
    split <;> rfl

/-- Claim C2, counterexample: with samples `[1,2,3,4,5]`, uniform weights,
`n = 5` and spin forced to `0`, the output is NOT `[1,2,3,4,5]`: the strict
comparison `accumulated_weights < current_spoke` means a spoke lying exactly
on a cumulative boundary does not advance the selector, so index 0 is picked
twice. -/
theorem c2_monotonic_coverage_counterexample :
    random_choice_f64 ([1, 2, 3, 4, 5] : List ℤ) [1, 1, 1, 1, 1] 5 0 ≠
      some [1, 2, 3, 4, 5] := by
  norm_num [random_choice_f64, choiceLoop, advance, advanceFuel]

/-- Claim C2, amended: on that input the code returns the samples at indices
`[0,0,1,2,3]`, i.e. `[1,1,2,3,4]`. -/
theorem c2_monotonic_coverage_amended :
    random_choice_f64 ([1, 2, 3, 4, 5] : List ℤ) [1, 1, 1, 1, 1] 5 0 =
      some [1, 1, 2, 3, 4] ∧
    random_choice_indices [1, 1, 1, 1, 1] 5 0 = some [0, 0, 1, 2, 3] := by
  constructor
  · norm_num [random_choice_f64, choiceLoop, advance, advanceFuel]
  · norm_num [random_choice_indices, walkIndices, advance, advanceFuel]

/-- Claim C5, counterexample: a call with a nonempty weight list of
non-positive total (`[0]`, sum `0`) and `n = 1` completes WITHOUT any
out-of-bounds access, returning `[7]` — the inner loop never runs because
`spin = u * (0 / 1) = 0` and the spokes all equal `0`. -/
theorem c5_index_overrun_counterexample :
    ([(0 : ℚ)].foldl (fun acc w => acc + w) 0 ≤ 0) ∧
    random_choice_f64 ([7] : List ℤ) [0] 1 0 = some [7] := by
  constructor
  · norm_num
  · norm_num [random_choice_f64, choiceLoop, advance, advanceFuel]

/-- Claim C5, amended: for non-negative weights a non-positive total means
every weight is zero; then the spoke gap, the spin and every spoke are `0`,
the accumulated weight (`0`) never falls below the spoke, the inner loop
never advances past the end, and the call returns `n` copies of the first
sample instead of overrunning. -/
theorem c5_zero_total_no_overrun (s0 : α) (stail : List α) (weights : List ℚ)
    (n : Nat) (u : ℚ) (hw : weights ≠ []) (hz : ∀ x ∈ weights, x = 0) :
    random_choice_f64 (s0 :: stail) weights n u = some (List.replicate n s0) := by
  by_cases hn : n = 0
  · subst hn
    simp [random_choice_f64]
  · have hg : ¬ (weights.length = 0 ∨ n = 0) := by
      push_neg
      exact ⟨fun he => hw (List.length_eq_zero.mp he), hn⟩
    simp only [random_choice_f64, if_neg hg]
    have hsum : weights.foldl (fun acc w => acc + w) 0 = 0 := by
      rw [foldl_add_eq]
      simp [List.sum_eq_zero hz]
    split
    next hnone =>
      cases weights with
      | nil => exact absurd rfl hw
      | cons a tl => simp at hnone
    next w0 hg0 =>
      have hw0 : w0 = 0 := hz w0 (List.get?_mem hg0)
      rw [hsum, hw0]
      simpa using choiceLoop_zero_gap s0 stail weights n

/-- Witness for the amended C5 on weights `[0]`, `n = 1`. -/
theorem c5_zero_total_no_overrun_witness :
    random_choice_f64 ([7] : List ℤ) [0] 1 0 = some (List.replicate 1 7) :=
  c5_zero_total_no_overrun (7 : ℤ) [] [0] 1 0 (by simp) (by simp)

/-- Claim C3: whenever the cumulative walk stays in bounds (the call returns
`some`), the allocating variant returns exactly `n` elements (for nonempty
weights), and the in-place variant never changes the buffer's length. -/
theorem c3_length_invariant (samples samples2 : List α) (weights weights2 : List ℚ)
    (n : Nat) (u u2 : ℚ) (hw : weights ≠ []) :
    (∀ l, random_choice_f64 samples weights n u = some l → l.length = n) ∧
    (∀ l, random_choice_f32 samples weights n u = some l → l.length = n) ∧
    (∀ l, random_choice_in_place_f64 samples2 weights2 u2 = some l →
      l.length = samples2.length) ∧
    (∀ l, random_choice_in_place_f32 samples2 weights2 u2 = some l →
      l.length = samples2.length) := by
  have h64 : ∀ l, random_choice_f64 samples weights n u = some l → l.length = n := by
    intro l h
    by_cases hg : weights.length = 0 ∨ n = 0
    · have hn : n = 0 := by
        rcases hg with hg | hg
        · exact absurd (List.length_eq_zero.mp hg) hw
        · exact hg
      simp only [random_choice_f64, if_pos hg] at h
      obtain rfl : ([] : List α) = l := Option.some.inj h
      simp [hn]
    · simp only [random_choice_f64, if_neg hg] at h
      split at h
      · exact absurd h (by simp)
      next w0 hg0 => exact choiceLoop_length samples weights _ n 0 w0 _ l h
  have hip64 : ∀ l, random_choice_in_place_f64 samples2 weights2 u2 = some l →
      l.length = samples2.length := by
    intro l h
    by_cases hg : weights2.length < 2
    · simp only [random_choice_in_place_f64, if_pos hg] at h
      obtain rfl : samples2 = l := Option.some.inj h
      rfl
    · simp only [random_choice_in_place_f64, if_neg hg] at h
      split at h
      · exact absurd h (by simp)
      next w0 hg0 => exact inPlaceLoop_length weights2 _ weights2.length 0 0 w0 _ samples2 l h
  refine ⟨h64, ?_, hip64, ?_⟩
  · intro l h
    rw [random_choice_f32_eq] at h
    exact h64 l h
  · intro l h
    rw [random_choice_in_place_f32_eq] at h
    exact hip64 l h

/-- Witness for C3: on samples `[5]`, weights `[1]`, `n = 1` the allocating
call returns one element; the in-place call on `[8, 9]` with weights `[1, 1]`
returns a buffer of the input length. -/
theorem c3_length_invariant_witness :
    random_choice_f64 ([5] : List ℤ) [1] 1 0 = some [5] ∧
    ([5] : List ℤ).length = 1 ∧
    random_choice_in_place_f64 ([8, 9] : List ℤ) [1, 1] (1/2) = some [8, 9] ∧
    ([8, 9] : List ℤ).length = ([8, 9] : List ℤ).length := by
  have hev : random_choice_f64 ([5] : List ℤ) [1] 1 0 = some [5] := by
    norm_num [random_choice_f64, choiceLoop, advance, advanceFuel]
  have hev2 : random_choice_in_place_f64 ([8, 9] : List ℤ) [1, 1] (1/2) = some [8, 9] := by
    norm_num [random_choice_in_place_f64, inPlaceLoop, advance, advanceFuel]
  exact ⟨hev,
    (c3_length_invariant ([5] : List ℤ) ([8, 9] : List ℤ) [1] [1, 1] 1 0 (1/2)
      (by simp)).1 [5] hev,
    hev2,
    (c3_length_invariant ([5] : List ℤ) ([8, 9] : List ℤ) [1] [1, 1] 1 0 (1/2)
      (by simp)).2.2.1 [8, 9] hev2⟩

/-- Claim C10: in every completed call the sequence of selected source
indices is monotonically non-decreasing. `random_choice_indices` /
`in_place_indices` record, slot by slot, the index the walk selects in the
allocating and in-place variants respectively (both precisions share this
walk verbatim). -/
theorem c10_indices_non_decreasing (weights weights2 : List ℚ) (n : Nat) (u u2 : ℚ) :
    (∀ js, random_choice_indices weights n u = some js → js.Chain' (· ≤ ·)) ∧
    (∀ js, in_place_indices weights2 u2 = some js → js.Chain' (· ≤ ·)) := by
  constructor
  · intro js h
    by_cases hg : weights.length = 0 ∨ n = 0
    · simp only [random_choice_indices, if_pos hg] at h
      obtain rfl : ([] : List Nat) = js := Option.some.inj h
      exact List.chain'_nil
    · simp only [random_choice_indices, if_neg hg] at h
      split at h
      · exact absurd h (by simp)
      next w0 hg0 => exact (walkIndices_mono weights _ n 0 w0 _ js h).2
  · intro js h
    by_cases hg : weights2.length < 2
    · simp only [in_place_indices, if_pos hg] at h
      obtain rfl : ([] : List Nat) = js := Option.some.inj h
      exact List.chain'_nil
    · simp only [in_place_indices, if_neg hg] at h
      split at h
      · exact absurd h (by simp)
      next w0 hg0 => exact (walkIndices_mono weights2 _ weights2.length 0 w0 _ js h).2

/-- Witness for C10 at uniform weights `[1, 1]` and `u = 1/2`: the recorded
index sequences are `[0, 1]`, which are non-decreasing. -/
theorem c10_indices_non_decreasing_witness :
    random_choice_indices [1, 1] 2 (1/2) = some [0, 1] ∧
    ([0, 1] : List Nat).Chain' (· ≤ ·) ∧
    in_place_indices [1, 1] (1/2) = some [0, 1] ∧
    List.Chain' (· ≤ ·) ([0, 1] : List Nat) := by
  have hev : random_choice_indices [1, 1] 2 (1/2) = some [0, 1] := by
    norm_num [random_choice_indices, walkIndices, advance, advanceFuel]
  have hev2 : in_place_indices [1, 1] (1/2) = some [0, 1] := by
    norm_num [in_place_indices, walkIndices, advance, advanceFuel]
  exact ⟨hev,
    (c10_indices_non_decreasing [1, 1] [1, 1] 2 (1/2) (1/2)).1 [0, 1] hev,
    hev2,
    (c10_indices_non_decreasing [1, 1] [1, 1] 2 (1/2) (1/2)).2 [0, 1] hev2⟩

/-- Claim C4: every element of the allocating variant's output is exactly the
sample at the index the cumulative walk selected for that slot (in the value
model, reference equality is index equality), and every selected index is in
bounds; no other value is ever produced. Holds for both precisions. -/
theorem c4_aliasing [Inhabited α] (samples : List α) (weights : List ℚ) (n : Nat) (u : ℚ) :
    (∀ l, random_choice_f64 samples weights n u = some l →
      ∃ js, random_choice_indices weights n u = some js ∧
        l = js.map (fun j => samples.getD j default) ∧ ∀ j ∈ js, j < samples.length) ∧
    (∀ l, random_choice_f32 samples weights n u = some l →
      ∃ js, random_choice_indices weights n u = some js ∧
        l = js.map (fun j => samples.getD j default) ∧ ∀ j ∈ js, j < samples.length) := by
  have h64 : ∀ l, random_choice_f64 samples weights n u = some l →
      ∃ js, random_choice_indices weights n u = some js ∧
        l = js.map (fun j => samples.getD j default) ∧ ∀ j ∈ js, j < samples.length := by
    intro l h
    by_cases hg : weights.length = 0 ∨ n = 0
    · simp only [random_choice_f64, if_pos hg] at h
      obtain rfl : ([] : List α) = l := Option.some.inj h
      exact ⟨[], by simp only [random_choice_indices, if_pos hg], by simp, by simp⟩
    · simp only [random_choice_f64, if_neg hg] at h
      split at h
      · exact absurd h (by simp)
      next w0 hg0 =>
        obtain ⟨js, hjs, hmap, hbound⟩ := choiceLoop_indices samples weights _ n 0 w0 _ l h
        refine ⟨js, ?_, hmap, hbound⟩
        simp only [random_choice_indices, if_neg hg]
        split
        next hnone => rw [hg0] at hnone; exact absurd hnone (by simp)
        next w0' hg0' =>
          rw [hg0] at hg0'
          obtain rfl : w0 = w0' := Option.some.inj hg0'
          exact hjs
  refine ⟨h64, ?_⟩
  intro l h
  rw [random_choice_f32_eq] at h
  exact h64 l h

/-- Witness for C4: at samples `[10, 20]`, weights `[1, 1]`, `n = 2`,
`u = 1/2` the output `[10, 20]` equals the samples at the selected indices
`[0, 1]`. -/
theorem c4_aliasing_witness :
    ∃ js, random_choice_indices [1, 1] 2 (1/2) = some js ∧
      ([10, 20] : List ℤ) = js.map (fun j => ([10, 20] : List ℤ).getD j default) ∧
      ∀ j ∈ js, j < ([10, 20] : List ℤ).length :=
  (c4_aliasing ([10, 20] : List ℤ) [1, 1] 2 (1/2)).1 [10, 20]
    (by norm_num [random_choice_f64, choiceLoop, advance, advanceFuel])

/-- Claim C9, counterexample: a guard-path call (empty weights) returns
without invoking the random source at all — its state is unchanged, not
advanced by one — so the source is NOT drawn exactly once per call on every
input. -/
theorem c9_single_draw_counterexample :
    (random_choice_f64_rng ([1] : List ℤ) ([] : List ℚ) 5 ⟨fun _ => 0, 0⟩).2.idx = 0 ∧
    ¬ ((0 : Nat) = 0 + 1) := by
  constructor
  · rfl
  · simp

/-- Claim C9, amended: every non-guard call draws from the uniform source
exactly once (the state advances by exactly one position and the stream is
untouched), while guard-path calls return with the source state completely
unchanged (zero draws); advancing the source is the only shared-state
effect representable in the model. -/
theorem c9_single_draw_amended (s1 s2 s3 s4 : List α) (w1 w2 w3 w4 : List ℚ)
    (n1 n2 : Nat) (r1 r2 r3 r4 : Rng)
    (h1 : w1 ≠ []) (h1' : n1 ≠ 0) (h2 : w2.length = 0 ∨ n2 = 0)
    (h3 : 2 ≤ w3.length) (h4 : w4.length < 2) :
    (random_choice_f64_rng s1 w1 n1 r1).2 = ⟨r1.stream, r1.idx + 1⟩ ∧
    (random_choice_f32_rng s1 w1 n1 r1).2 = ⟨r1.stream, r1.idx + 1⟩ ∧
    (random_choice_f64_rng s2 w2 n2 r2).2 = r2 ∧
    (random_choice_f32_rng s2 w2 n2 r2).2 = r2 ∧
    (random_choice_in_place_f64_rng s3 w3 r3).2 = ⟨r3.stream, r3.idx + 1⟩ ∧
    (random_choice_in_place_f32_rng s3 w3 r3).2 = ⟨r3.stream, r3.idx + 1⟩ ∧
    (random_choice_in_place_f64_rng s4 w4 r4).2 = r4 ∧
    (random_choice_in_place_f32_rng s4 w4 r4).2 = r4 := by
  have hg1 : ¬ (w1.length = 0 ∨ n1 = 0) := by
    push_neg
    exact ⟨fun he => h1 (List.length_eq_zero.mp he), h1'⟩
  have hg3 : ¬ (w3.length < 2) := by omega
  refine ⟨?_, ?_, ?_, ?_, ?_, ?_, ?_, ?_⟩
  · simp only [random_choice_f64_rng, if_neg hg1, Rng.next]
  · simp only [random_choice_f32_rng, if_neg hg1, Rng.next]
  · simp only [random_choice_f64_rng, if_pos h2]
  · simp only [random_choice_f32_rng, if_pos h2]
  · simp only [random_choice_in_place_f64_rng, if_neg hg3, Rng.next]
  · simp only [random_choice_in_place_f32_rng, if_neg hg3, Rng.next]
  · simp only [random_choice_in_place_f64_rng, if_pos h4]
  · simp only [random_choice_in_place_f32_rng, if_pos h4]

/-- Witness for the amended C9: a non-guard allocating call advances the
source position from 3 to 4; a non-guard in-place call advances it from 5 to
6; guard calls leave it alone. -/
theorem c9_single_draw_amended_witness :
    (random_choice_f64_rng ([1] : List ℤ) [1] 1 ⟨fun _ => 0, 3⟩).2 =
      (⟨fun _ => 0, 4⟩ : Rng) ∧
    (random_choice_f64_rng ([1] : List ℤ) ([] : List ℚ) 0 ⟨fun _ => 0, 3⟩).2 =
      (⟨fun _ => 0, 3⟩ : Rng) ∧
    (random_choice_in_place_f64_rng ([1, 2] : List ℤ) [1, 1] ⟨fun _ => 0, 5⟩).2 =
      (⟨fun _ => 0, 6⟩ : Rng) ∧
    (random_choice_in_place_f64_rng ([1] : List ℤ) [1] ⟨fun _ => 0, 5⟩).2 =
      (⟨fun _ => 0, 5⟩ : Rng) := by
  have h := c9_single_draw_amended ([1] : List ℤ) ([1] : List ℤ)
    ([1, 2] : List ℤ) ([1] : List ℤ) [1] ([] : List ℚ) [1, 1] [1] 1 0
    ⟨fun _ => 0, 3⟩ ⟨fun _ => 0, 3⟩ ⟨fun _ => 0, 5⟩ ⟨fun _ => 0, 5⟩
    (by simp) (by simp) (Or.inl rfl) (by norm_num) (by norm_num)
  exact ⟨h.1, h.2.2.1, h.2.2.2.2.1, h.2.2.2.2.2.2.1⟩

/-- Claim C1, counterexample: in the in-place walk with weights `[0, 0, 1]`
(accepted by the guard: length 3 ≥ 2, all weights non-negative) and draw
`u = 1/2` (spin `1/6 ∈ [0, 1/3)`), the very first write (destination `i = 0`)
reads source index `j = 2`: the selector index CAN outrun the destination
index, refuting `j ≤ i`. -/
theorem c1_selector_counterexample :
    2 ≤ ([0, 0, 1] : List ℚ).length ∧
    (∀ x ∈ ([0, 0, 1] : List ℚ), 0 ≤ x) ∧
    (0 : ℚ) ≤ 1/2 ∧ (1/2 : ℚ) < 1 ∧
    in_place_indices [0, 0, 1] (1/2) = some [2, 2, 2] ∧
    ¬ (([2, 2, 2] : List Nat).get ⟨0, by norm_num⟩ ≤ 0) := by
  refine ⟨by norm_num, ?_, by norm_num, by norm_num, ?_, by simp [List.get]⟩
  · intro x hx
    simp only [List.mem_cons, List.not_mem_nil, or_false] at hx
    rcases hx with rfl | rfl | rfl <;> norm_num
  · norm_num [in_place_indices, walkIndices, advance, advanceFuel]

/-- Claim C1, amended: the selector index `j` never outruns the destination
index `i` PROVIDED the weights' prefix sums keep pace with the spokes: if for
every `k` the sum of the first `k+1` weights is at least `(k+1) · spoke_gap`
(true, e.g., for uniform positive weights), then with any spin `u·gap`,
`u ∈ [0, 1)`, the in-place walk satisfies `j ≤ i` at every write step. For
general non-negative weights the property fails (see the counterexample). -/
theorem c1_selector_le_destination (weights : List ℚ) (u : ℚ)
    (h2 : 2 ≤ weights.length) (hnn : ∀ x ∈ weights, 0 ≤ x)
    (hu0 : 0 ≤ u) (hu1 : u < 1)
    (pace : ∀ k : Nat, k < weights.length →
      ((k : ℚ) + 1) * (weights.foldl (fun acc w => acc + w) 0 / (weights.length : ℚ)) ≤
        pSum weights (k + 1)) :
    ∀ js, in_place_indices weights u = some js →
      ∀ (t : Nat) (ht : t < js.length), js.get ⟨t, ht⟩ ≤ t := by
  intro js h t ht
  have hg : ¬ weights.length < 2 := by omega
  simp only [in_place_indices, if_neg hg] at h
  split at h
  next hnone =>
    cases weights with
    | nil => simp at h2
    | cons a tl => simp at hnone
  next w0 hg0 =>
    have hsum : weights.foldl (fun acc w => acc + w) 0 = weights.sum := by
      rw [foldl_add_eq]
      ring
    have hS0 : (0 : ℚ) ≤ weights.foldl (fun acc w => acc + w) 0 := by
      rw [hsum]
      exact List.sum_nonneg hnn
    have hlen0 : (0 : ℚ) < (weights.length : ℚ) := by
      have : 0 < weights.length := by omega
      exact_mod_cast this
    have hgap0 : (0 : ℚ) ≤ weights.foldl (fun acc w => acc + w) 0 / (weights.length : ℚ) :=
      div_nonneg hS0 hlen0.le
    have hacc0 : w0 = pSum weights 1 := by
      cases weights with
      | nil => simp at h2
      | cons a tl =>
        have ha : a = w0 := by simpa using hg0
        rw [pSum_one, ← ha]
    have hpace : ∀ s : Nat, s < weights.length →
        u * (weights.foldl (fun acc w => acc + w) 0 / (weights.length : ℚ)) +
          (s : ℚ) * (weights.foldl (fun acc w => acc + w) 0 / (weights.length : ℚ)) ≤
          pSum weights (0 + s + 1) := by
      intro s hs
      have hp := pace s hs
      have he : 0 + s + 1 = s + 1 := by omega
      rw [he]
      have hspin : u * (weights.foldl (fun acc w => acc + w) 0 / (weights.length : ℚ)) ≤
          weights.foldl (fun acc w => acc + w) 0 / (weights.length : ℚ) :=
        mul_le_of_le_one_left hgap0 hu1.le
      nlinarith [hspin, hp]
    have hmain := walkIndices_pace weights
      (weights.foldl (fun acc w => acc + w) 0 / (weights.length : ℚ))
      weights.length 0 0 w0
      (u * (weights.foldl (fun acc w => acc + w) 0 / (weights.length : ℚ)))
      (by omega) (by omega) hacc0 hpace js h t ht
    simpa using hmain

/-- Witness for the amended C1 at uniform weights `[1, 1]`, `u = 1/2`: the
walk records `[0, 1]` and indeed `j ≤ i` at the last write. -/
theorem c1_selector_le_destination_witness :
    in_place_indices [1, 1] (1/2) = some [0, 1] ∧
    ([0, 1] : List Nat).get ⟨1, by norm_num⟩ ≤ 1 := by
  have hev : in_place_indices [1, 1] (1/2) = some [0, 1] := by
    norm_num [in_place_indices, walkIndices, advance, advanceFuel]
  refine ⟨hev, ?_⟩
  exact c1_selector_le_destination [1, 1] (1/2) (by norm_num)
    (by intro x hx; simp only [List.mem_cons, List.not_mem_nil, or_false] at hx;
        rcases hx with rfl | rfl <;> norm_num)
    (by norm_num) (by norm_num)
    (by intro k hk
        simp only [List.length_cons, List.length_nil] at hk
        interval_cases k <;> norm_num [pSum])
    [0, 1] hev 1 (by norm_num)

end RandomChoice
